import Mathlib

/-!
Verification of the IPP Revenue & Capture Lab analytics engine.

This file is a shallow embedding, in Lean 4, of the computation engine of the
repository: the aligner (`alignData`), the KPI calculator (`calculateKPIs` and
its helpers), the battery dispatch simulator (`simulateBattery`), and the
representative-week selector (`findRepresentativeWeeks`).

Modelling conventions:
* JavaScript numbers are modelled as exact rationals (`ℚ`); timestamps are
  integers (epoch seconds, `ℤ`).
* `Math.round x` is `⌊x + 1/2⌋` (round half toward +∞), which is JavaScript's
  behaviour on the reals.
* The `date` field a record carries in the source (`new Date(ts * 1000)`) is
  fully determined by the timestamp; calendar components are derived here from
  the timestamp with the standard civil-from-days algorithm in the fixed
  reference timezone (UTC), matching `toISOString` and the spec's "calendar
  date derived from timestamp in a fixed reference timezone".
* JavaScript `Map` and `Set` iterate in insertion order, with later `set`s of
  the same key overwriting earlier values; `Array.prototype.sort` is stable.
  Grouping loops are embedded denotationally: first-occurrence key order
  (`firstDedup`) with per-key `filter`s, and sorting is `List.insertionSort`
  (a stable sort, hence extensionally the JavaScript sort for the total
  preorders used here).
* Month keys are modelled as `(year, month)` pairs ordered lexicographically;
  the source compares the strings "YYYY-MM" with zero-padded months, which is
  the same order for four-digit years.
* `Math.sqrt efficiency` is irrational in general, so the battery simulator
  takes the value `sqrtEfficiency` as an explicit parameter; theorems assume
  of it only properties that the real square root of an `efficiency ∈ (0, 1]`
  satisfies.
-/

/-- `Math.round`: round half toward positive infinity. -/
def jround (q : ℚ) : ℚ := (⌊q + 1/2⌋ : ℤ)

/-- `Math.round (x * 100) / 100`: round to 2 decimals. -/
def round2 (q : ℚ) : ℚ := jround (q * 100) / 100

/-- `Math.round (x * 10) / 10`: round to 1 decimal. -/
def round1 (q : ℚ) : ℚ := jround (q * 10) / 10

/-- Civil date (year, month 1..12, day 1..31) from days since the Unix epoch
(Howard Hinnant's algorithm, as used by every proleptic-Gregorian `Date`). -/
def civilFromDays (z : ℤ) : ℤ × ℕ × ℕ :=
  let z' := z + 719468
  let era := z'.fdiv 146097
  let doe := (z' - era * 146097).toNat
  let yoe := (doe - doe / 1460 + doe / 36524 - doe / 146096) / 365
  let doy := doe - (365 * yoe + yoe / 4 - yoe / 100)
  let mp := (5 * doy + 2) / 153
  let d := doy - (153 * mp + 2) / 5 + 1
  let m := if mp < 10 then mp + 3 else mp - 9
  (era * 400 + yoe + (if m ≤ 2 then 1 else 0), m, d)

/-- Calendar date of an epoch-seconds timestamp in the reference timezone. -/
def dateOf (ts : ℤ) : ℤ × ℕ × ℕ := civilFromDays (ts.fdiv 86400)

/-- Hour of day (0..23) of a timestamp, as `Date.getHours` in the reference timezone. -/
def hourOfDay (ts : ℤ) : ℕ := (ts.emod 86400).toNat / 3600

/-- Month key `(year, month)`, standing for the source's "YYYY-MM" string key. -/
def monthKeyOf (ts : ℤ) : ℤ × ℕ := ((dateOf ts).1, (dateOf ts).2.1)

/-- Day key `(year, month, day)`, standing for `toISOString().split('T')[0]`. -/
def dayKeyOf (ts : ℤ) : ℤ × ℕ × ℕ := dateOf ts

/-- Zero-based month index, as `Date.getMonth`. -/
def monthIndexOf (ts : ℤ) : ℕ := (dateOf ts).2.1 - 1

/-- A point of the price series: `{timestamp, price}`. -/
structure PricePoint where
  timestamp : ℤ
  price : ℚ
deriving DecidableEq, Repr

/-- A point of the PV output series: `{timestamp, output}`. -/
structure OutputPoint where
  timestamp : ℤ
  output : ℚ
deriving DecidableEq, Repr

/-- An aligned record `{timestamp, price, output}`; the source also stores
`date = new Date(timestamp * 1000)`, recovered here by `dateOf`. -/
structure AlignedRecord where
  timestamp : ℤ
  price : ℚ
  output : ℚ
deriving DecidableEq, Repr

/-- Fold step building a JavaScript-`Set`-like list: append if not present. -/
def insertNew {α : Type} [DecidableEq α] (acc : List α) (a : α) : List α :=
  if a ∈ acc then acc else acc ++ [a]

/-- Deduplicate keeping the first occurrence of each element, in order —
the iteration order of a JavaScript `Set` or of `Map` keys. -/
def firstDedup {α : Type} [DecidableEq α] (l : List α) : List α :=
  l.foldl insertNew []

/-- Group a list by a key, keys in first-occurrence order, each group in
list order — the denotation of building a JavaScript `Map` of arrays. -/
def groupByKey {α κ : Type} [DecidableEq κ] (key : α → κ) (data : List α) :
    List (κ × List α) :=
  (firstDedup (data.map key)).map fun k => (k, data.filter fun d => key d = k)

/-- Value a JavaScript `Map` holds for `k` after `set`ting every pair of `m`
in order: the last pair with that key wins. -/
def mapGetLast (m : List (ℤ × ℚ)) (k : ℤ) : Option ℚ :=
  ((m.filter fun p => p.1 = k).getLast?).map (·.2)

/-- `DataSources.alignData`: inner join of the two series on timestamp,
sorted ascending by timestamp. -/
def alignData (prices : List PricePoint) (pvProfile : List OutputPoint) :
    List AlignedRecord :=
  let priceMap := mapGetLast (prices.map fun p => (p.timestamp, p.price))
  let pvMap := mapGetLast (pvProfile.map fun p => (p.timestamp, p.output))
  let allTimestamps :=
    firstDedup (prices.map (·.timestamp) ++ pvProfile.map (·.timestamp))
  let aligned := allTimestamps.filterMap fun ts =>
    match priceMap ts, pvMap ts with
    | some price, some output => some ⟨ts, price, output⟩
    | _, _ => none
  aligned.insertionSort fun a b => a.timestamp ≤ b.timestamp

instance : IsTotal AlignedRecord fun a b => a.timestamp ≤ b.timestamp :=
  ⟨fun a b => le_total a.timestamp b.timestamp⟩

instance : IsTrans AlignedRecord fun a b => a.timestamp ≤ b.timestamp :=
  ⟨fun _ _ _ h1 h2 => le_trans h1 h2⟩

/-- `Compute.calculateMean`. -/
def calculateMean (values : List ℚ) : ℚ :=
  if values.length = 0 then 0 else values.sum / values.length

/-- Population variance, the mean of squared deviations.
`Compute.calculateStdDev` is `Math.sqrt` of this quantity; the square root is
irrational in general, so the variance is what the embedding stores, and
statements about standard deviations apply `Real.sqrt` to it.  Comparisons and
sort orders agree, since `Real.sqrt` is monotone on the nonnegatives. -/
def calculateVariance (values : List ℚ) : ℚ :=
  if values.length = 0 then 0
  else calculateMean (values.map fun v => (v - calculateMean values) ^ 2)

/-- `Compute.percentile` on an already sorted array: linear interpolation of
order statistics at index `p/100 · (n-1)`.  Out-of-range indices, which the
source would read as `undefined`, default to 0; they are unreachable for
`p ∈ [0, 100]`. -/
def percentile (sortedArr : List ℚ) (p : ℚ) : ℚ :=
  if sortedArr.length = 0 then 0
  else
    let idx := (p / 100) * ((sortedArr.length : ℚ) - 1)
    let lower := ⌊idx⌋
    let upper := ⌈idx⌉
    if lower = upper then sortedArr.getD lower.toNat 0
    else sortedArr.getD lower.toNat 0 * ((upper : ℚ) - idx) +
      sortedArr.getD upper.toNat 0 * (idx - (lower : ℚ))

/-- One entry of the monthly revenue distribution. -/
structure MonthAgg where
  month : ℤ × ℕ
  revenue : ℚ
  production : ℚ
deriving DecidableEq, Repr

/-- Lexicographic order on month keys: the order `localeCompare` gives the
source's zero-padded "YYYY-MM" strings. -/
def monthKeyLe (a b : ℤ × ℕ) : Prop := a.1 < b.1 ∨ (a.1 = b.1 ∧ a.2 ≤ b.2)

instance : DecidableRel monthKeyLe := fun a b => by unfold monthKeyLe; infer_instance

/-- `Compute.calculateMonthlyRevenues`: group by month key, sum revenue and
production per month, sort chronologically. -/
def calculateMonthlyRevenues (data : List AlignedRecord) : List MonthAgg :=
  ((groupByKey (fun d => monthKeyOf d.timestamp) data).map fun (g : (ℤ × ℕ) × List AlignedRecord) =>
    { month := g.1
      revenue := (g.2.map fun d => d.price * d.output).sum
      production := (g.2.map (·.output)).sum }).insertionSort
    fun a b => monthKeyLe a.month b.month

/-- Risk percentiles of the monthly revenue distribution. -/
structure RiskMetrics where
  p5 : ℚ
  p50 : ℚ
  p95 : ℚ
deriving DecidableEq, Repr

/-- `Compute.calculateRiskMetrics`: P5/P50/P95 of the ascending-sorted monthly
revenues, each passed through `Math.round`. -/
def calculateRiskMetrics (monthlyRevenues : List MonthAgg) : RiskMetrics :=
  let revenues := monthlyRevenues.map (·.revenue)
  if revenues.length = 0 then ⟨0, 0, 0⟩
  else
    let sorted := revenues.insertionSort (· ≤ ·)
    { p5 := jround (percentile sorted 5)
      p50 := jround (percentile sorted 50)
      p95 := jround (percentile sorted 95) }

/-- One entry of the monthly capture-rate trend. -/
structure MonthlyCaptureRate where
  month : ℤ × ℕ
  baseload : ℚ
  capture : ℚ
  rate : ℚ
deriving DecidableEq, Repr

/-- `Compute.calculateMonthlyCaptureRates`. -/
def calculateMonthlyCaptureRates (data : List AlignedRecord) : List MonthlyCaptureRate :=
  ((groupByKey (fun d => monthKeyOf d.timestamp) data).map fun (g : (ℤ × ℕ) × List AlignedRecord) =>
    let count := g.2.length
    let priceSum := (g.2.map (·.price)).sum
    let weightedPriceSum := (g.2.map fun d => d.price * d.output).sum
    let outputSum := (g.2.map (·.output)).sum
    let baseload := priceSum / (count : ℚ)
    let capture := if outputSum > 0 then weightedPriceSum / outputSum else 0
    let rate := if baseload > 0 then capture / baseload * 100 else 0
    { month := g.1
      baseload := round2 baseload
      capture := round2 capture
      rate := round1 rate }).insertionSort fun a b => monthKeyLe a.month b.month

/-- `Math.min(...prices)` for a nonempty list (the empty case, `Infinity` in
the source, is unreachable behind the nonempty-data guard). -/
def jsMinL : List ℚ → ℚ
  | [] => 0
  | x :: xs => xs.foldl min x

/-- `Math.max(...prices)` for a nonempty list. -/
def jsMaxL : List ℚ → ℚ
  | [] => 0
  | x :: xs => xs.foldl max x

/-- Lower edge of the histogram: `Math.floor(min / 10) * 10`. -/
def binMinOf (data : List AlignedRecord) : ℤ := 10 * ⌊jsMinL (data.map (·.price)) / 10⌋

/-- Upper edge of the histogram: `Math.ceil(max / 10) * 10`. -/
def binMaxOf (data : List AlignedRecord) : ℤ := 10 * ⌈jsMaxL (data.map (·.price)) / 10⌉

/-- Lower bounds of the histogram bins: `for (i = min; i < max; i += 10)`. -/
def binLows (data : List AlignedRecord) : List ℤ :=
  (List.range ((binMaxOf data - binMinOf data).toNat / 10)).map fun (k : ℕ) =>
    binMinOf data + 10 * (k : ℤ)

/-- Membership of a price in the bin `[lo, lo + 10)`: the source's
`price >= b.min && price < b.max`. -/
def inBin (lo : ℤ) (p : ℚ) : Prop := (lo : ℚ) ≤ p ∧ p < (lo : ℚ) + 10

instance (lo : ℤ) (p : ℚ) : Decidable (inBin lo p) := by unfold inBin; infer_instance

/-- A returned histogram bin (the redundant `range` label string is omitted;
`max` is always `min + 10`). -/
structure DistBin where
  min : ℚ
  allPct : ℚ
  pvPct : ℚ
deriving DecidableEq, Repr

/-- `Compute.calculatePriceDistribution`.  The source walks each population
and increments the first (hence, the bins being disjoint, the unique) bin
containing the price, so a bin's final count is the number of that
population's prices it contains; prices contained in no bin are skipped. -/
def calculatePriceDistribution (data : List AlignedRecord) : List DistBin :=
  let allPrices := data.map (·.price)
  let pvPrices := (data.filter fun d => d.output > 0).map (·.price)
  let allTotal := allPrices.length
  let pvTotal := pvPrices.length
  (binLows data).map fun (lo : ℤ) =>
    { min := (lo : ℚ)
      allPct := jround (((allPrices.countP fun p => decide (inBin lo p) : ℕ) : ℚ) / (allTotal : ℚ) * 1000) / 10
      pvPct := if pvTotal > 0 then
          jround (((pvPrices.countP fun p => decide (inBin lo p) : ℕ) : ℚ) / (pvTotal : ℚ) * 1000) / 10
        else 0 }

/-- The negative-price heatmap result. -/
structure Heatmap where
  heatmap : List (List ℕ)
  counts : List (List ℕ)
  maxCount : ℕ
deriving DecidableEq, Repr

/-- `Compute.calculateNegativeHeatmap`: a 12×24 month-by-hour matrix whose
cell holds the number of producing records with negative price at that month
and hour (the source increments cells in a loop; a cell's final value is that
count), a parallel matrix of producing-record counts, and the largest
heatmap cell. -/
def calculateNegativeHeatmap (data : List AlignedRecord) : Heatmap :=
  let hm := (List.range 12).map fun m => (List.range 24).map fun h =>
    (data.filter fun d => d.output > 0 ∧ monthIndexOf d.timestamp = m ∧
      hourOfDay d.timestamp = h ∧ d.price < 0).length
  let cts := (List.range 12).map fun m => (List.range 24).map fun h =>
    (data.filter fun d => d.output > 0 ∧ monthIndexOf d.timestamp = m ∧
      hourOfDay d.timestamp = h).length
  { heatmap := hm
    counts := cts
    maxCount := (hm.map fun row => row.foldr max 0).foldr max 0 }

/-- The options record of `calculateKPIs`. -/
structure KPIOptions where
  floorPrice : Option ℚ := none
  ppaPrice : Option ℚ := none
deriving DecidableEq, Repr

/-- The KPI snapshot `calculateKPIs` returns. -/
structure KPIResult where
  baseloadAvg : ℚ
  capturePrice : ℚ
  captureRate : ℚ
  negativeHoursCount : ℕ
  negativeMWh : ℚ
  negativePercentage : ℚ
  totalProduction : ℚ
  merchantRevenue : ℚ
  ppaRevenue : Option ℚ
  riskMetrics : RiskMetrics
  monthlyCaptureRates : List MonthlyCaptureRate
  priceDistribution : List DistBin
  negativeHeatmap : Heatmap
  dataPoints : ℕ
deriving DecidableEq, Repr

/-- The result object `calculateKPIs` builds for nonempty data (the body of
the source function past its validation guard). -/
def mkKPIs (data : List AlignedRecord) (options : KPIOptions) : KPIResult :=
  let baseloadAvg := calculateMean (data.map (·.price))
  let totalProduction := (data.map (·.output)).sum
  let weightedSum := (data.map fun d => d.price * d.output).sum
  let capturePrice := if totalProduction > 0 then weightedSum / totalProduction else 0
  let captureRate := if baseloadAvg > 0 then capturePrice / baseloadAvg * 100 else 0
  let negativeHours := data.filter fun d => d.price < 0 ∧ d.output > 0
  let negativeMWh := (negativeHours.map (·.output)).sum
  let negativePercentage := if totalProduction > 0 then negativeMWh / totalProduction * 100 else 0
  let merchantRevenue := (data.map fun d =>
    (match options.floorPrice with
     | some f => max d.price f
     | none => d.price) * d.output).sum
  let ppaRevenue := options.ppaPrice.map fun pp => totalProduction * pp
  { baseloadAvg := round2 baseloadAvg
    capturePrice := round2 capturePrice
    captureRate := round1 captureRate
    negativeHoursCount := negativeHours.length
    negativeMWh := jround negativeMWh
    negativePercentage := round1 negativePercentage
    totalProduction := jround totalProduction
    merchantRevenue := jround merchantRevenue
    ppaRevenue := ppaRevenue.map jround
    riskMetrics := calculateRiskMetrics (calculateMonthlyRevenues data)
    monthlyCaptureRates := calculateMonthlyCaptureRates data
    priceDistribution := calculatePriceDistribution data
    negativeHeatmap := calculateNegativeHeatmap data
    dataPoints := data.length }

/-- `Compute.calculateKPIs`: `none` models the thrown
`'No data available for computation'`; `capacityMW` is informational and
unused by the math, as in the source. -/
def calculateKPIs (data : List AlignedRecord) (capacityMW : ℚ)
    (options : KPIOptions) : Option KPIResult :=
  if data.length = 0 then none else some (mkKPIs data options)

/-- `CONFIG.BATTERY.MIN_SOC` (worker constants): 5% minimum state of charge. -/
def BATTERY_MIN_SOC : ℚ := 0.05

/-- `CONFIG.BATTERY.MAX_SOC` (worker constants): 95% maximum state of charge. -/
def BATTERY_MAX_SOC : ℚ := 0.95

/-- The battery configuration; the caller validates `powerMW > 0`,
`energyMWh > 0`, `efficiency ∈ (0, 1]`. -/
structure BatteryConfig where
  powerMW : ℚ
  energyMWh : ℚ
  efficiency : ℚ
  oneCyclePerDay : Bool := true
deriving DecidableEq, Repr

/-- `Compute.groupByDay`: the day-keyed groups, in first-occurrence order. -/
def groupByDay (data : List AlignedRecord) : List (List AlignedRecord) :=
  (groupByKey (fun d => dayKeyOf d.timestamp) data).map (·.2)

/-- The per-day mutable state of the battery loop:
`soc`, `dayUplift`, `dayShifted`, `dayNegAvoided`. -/
structure BatteryDayState where
  soc : ℚ
  dayUplift : ℚ
  dayShifted : ℚ
  dayNegAvoided : ℚ
deriving DecidableEq, Repr

/-- `Math.ceil(energyMWh / powerMW)` candidate hours per cycle (or all 24). -/
def numCycleHours (cfg : BatteryConfig) : ℕ :=
  if cfg.oneCyclePerDay then (⌈cfg.energyMWh / cfg.powerMW⌉).toNat else 24

/-- The day's records sorted by price ascending (stable, as the JS sort). -/
def sortedHoursOf (dayData : List AlignedRecord) : List AlignedRecord :=
  dayData.insertionSort fun a b => a.price ≤ b.price

/-- Charging candidates: cheapest producing hours, at most `numCycleHours`. -/
def chargeHoursOf (cfg : BatteryConfig) (dayData : List AlignedRecord) :
    List AlignedRecord :=
  (((sortedHoursOf dayData).filter fun d => d.output > 0).take (numCycleHours cfg))

/-- Discharge candidates: the priciest hours not selected for charging
(`d.output === 0 || !chargeHours.includes(d)`), at most `numCycleHours`. -/
def dischargeHoursOf (cfg : BatteryConfig) (dayData : List AlignedRecord) :
    List AlignedRecord :=
  ((((sortedHoursOf dayData).filter fun d =>
    d.output = 0 ∨ d ∉ chargeHoursOf cfg dayData).reverse).take (numCycleHours cfg))

/-- One iteration of the charging loop. -/
def chargeStep (powerMW maxSOC sqrtEfficiency : ℚ) (st : BatteryDayState)
    (hour : AlignedRecord) : BatteryDayState :=
  let availableCapacity := maxSOC - st.soc
  let chargeableFromPV := min hour.output powerMW
  let actualCharge := min chargeableFromPV availableCapacity * sqrtEfficiency
  if actualCharge > 0 then
    { soc := st.soc + actualCharge
      dayUplift := st.dayUplift - actualCharge / sqrtEfficiency * hour.price
      dayShifted := st.dayShifted + actualCharge / sqrtEfficiency
      dayNegAvoided := st.dayNegAvoided +
        (if hour.price < 0 then actualCharge / sqrtEfficiency else 0) }
  else st

/-- One iteration of the discharging loop. -/
def dischargeStep (powerMW minSOC sqrtEfficiency : ℚ) (st : BatteryDayState)
    (hour : AlignedRecord) : BatteryDayState :=
  let availableEnergy := st.soc - minSOC
  let actualDischarge := min powerMW availableEnergy
  if actualDischarge > 0 then
    { st with
      soc := st.soc - actualDischarge
      dayUplift := st.dayUplift + actualDischarge * sqrtEfficiency * hour.price }
  else st

/-- The state a day starts from: SOC reset to the floor, accumulators zero. -/
def dayInit (cfg : BatteryConfig) : BatteryDayState :=
  ⟨BATTERY_MIN_SOC * cfg.energyMWh, 0, 0, 0⟩

/-- Every state the day's simulation passes through, in order: the initial
state, each state after a charging iteration, then each state after a
discharging iteration. -/
def dayStates (cfg : BatteryConfig) (sqrtEfficiency : ℚ)
    (dayData : List AlignedRecord) : List BatteryDayState :=
  let chargeStates := List.scanl
    (chargeStep cfg.powerMW (BATTERY_MAX_SOC * cfg.energyMWh) sqrtEfficiency)
    (dayInit cfg) (chargeHoursOf cfg dayData)
  chargeStates ++ List.scanl
    (dischargeStep cfg.powerMW (BATTERY_MIN_SOC * cfg.energyMWh) sqrtEfficiency)
    (chargeStates.getLastD (dayInit cfg)) (dischargeHoursOf cfg dayData)

/-- The state of charge at every simulated instant of the day. -/
def socTraceDay (cfg : BatteryConfig) (sqrtEfficiency : ℚ)
    (dayData : List AlignedRecord) : List ℚ :=
  (dayStates cfg sqrtEfficiency dayData).map (·.soc)

/-- The day's final state: the charging loop followed by the discharging
loop, folded over the day's candidate hours. -/
def dayFinal (cfg : BatteryConfig) (sqrtEfficiency : ℚ)
    (dayData : List AlignedRecord) : BatteryDayState :=
  (dischargeHoursOf cfg dayData).foldl
    (dischargeStep cfg.powerMW (BATTERY_MIN_SOC * cfg.energyMWh) sqrtEfficiency)
    ((chargeHoursOf cfg dayData).foldl
      (chargeStep cfg.powerMW (BATTERY_MAX_SOC * cfg.energyMWh) sqrtEfficiency)
      (dayInit cfg))

/-- `totalNegativeAvoided`: negative-price energy avoided by charging,
accumulated per day over the whole series. -/
def totalNegativeAvoidedOf (cfg : BatteryConfig) (sqrtEfficiency : ℚ)
    (data : List AlignedRecord) : ℚ :=
  ((groupByDay data).map fun day => (dayFinal cfg sqrtEfficiency day).dayNegAvoided).sum

/-- The denominator of `negativeReduction`: total production of the whole
series during negative-price producing hours. -/
def negativeDenominatorOf (data : List AlignedRecord) : ℚ :=
  ((data.filter fun d => d.price < 0 ∧ d.output > 0).map (·.output)).sum

/-- Per-day entry of `dailyResults` (`date` kept as the first record's
timestamp). -/
structure DailyResult where
  date : ℤ
  uplift : ℚ
  shifted : ℚ
deriving DecidableEq, Repr

/-- The result object of `Compute.simulateBattery`.  The source also
accumulates `originalNegativeRevenue` and `newNegativeRevenue` but returns
neither, so they are omitted. -/
structure BatteryResult where
  totalUplift : ℚ
  totalShiftedMWh : ℚ
  effectiveCapturePrice : ℚ
  negativeReduction : ℚ
  upliftPercentage : ℚ
  dailyResults : List DailyResult
  config : BatteryConfig
deriving DecidableEq, Repr

/-- `Compute.simulateBattery` (with `sqrtEfficiency` standing for the
source's `Math.sqrt(efficiency)`). -/
def simulateBattery (data : List AlignedRecord) (cfg : BatteryConfig)
    (sqrtEfficiency : ℚ) : BatteryResult :=
  let days := groupByDay data
  let totalUplift := (days.map fun day => (dayFinal cfg sqrtEfficiency day).dayUplift).sum
  let totalShiftedMWh := (days.map fun day => (dayFinal cfg sqrtEfficiency day).dayShifted).sum
  let totalNegativeAvoided := totalNegativeAvoidedOf cfg sqrtEfficiency data
  let originalRevenue := (data.map fun d => d.price * d.output).sum
  let newRevenue := originalRevenue + totalUplift
  let totalProduction := (data.map (·.output)).sum
  let effectiveCapturePrice := if totalProduction > 0 then newRevenue / totalProduction else 0
  let negativeReduction := if totalNegativeAvoided > 0 then
      totalNegativeAvoided / negativeDenominatorOf data * 100
    else 0
  { totalUplift := jround totalUplift
    totalShiftedMWh := jround totalShiftedMWh
    effectiveCapturePrice := round2 effectiveCapturePrice
    negativeReduction := round1 negativeReduction
    upliftPercentage := if originalRevenue > 0 then
        jround (totalUplift / originalRevenue * 1000) / 10
      else 0
    dailyResults := days.map fun day =>
      { date := (day.headD ⟨0, 0, 0⟩).timestamp
        uplift := (dayFinal cfg sqrtEfficiency day).dayUplift
        shifted := (dayFinal cfg sqrtEfficiency day).dayShifted }
    config := cfg }

/-- `Compute.groupByWeek`, as a recursion over the remaining records with the
accumulated current window: windows close at 168 records; the final window is
kept only with at least 120 records. -/
def groupByWeekAux (currentWeek : List AlignedRecord) (rest : List AlignedRecord) :
    List (List AlignedRecord) :=
  match rest with
  | [] => if 120 ≤ currentWeek.length then [currentWeek] else []
  | d :: ds =>
    if currentWeek.length < 168 then groupByWeekAux (currentWeek ++ [d]) ds
    else currentWeek :: groupByWeekAux [d] ds

/-- `Compute.groupByWeek`. -/
def groupByWeek (data : List AlignedRecord) : List (List AlignedRecord) :=
  groupByWeekAux [] data

/-- `Compute.calculateWeekCaptureRate`. -/
def calculateWeekCaptureRate (weekData : List AlignedRecord) : ℚ :=
  let totalOutput := (weekData.map (·.output)).sum
  if totalOutput = 0 then 0
  else
    let weightedSum := (weekData.map fun d => d.price * d.output).sum
    let capturePrice := weightedSum / totalOutput
    let avgPrice := calculateMean (weekData.map (·.price))
    if avgPrice > 0 then capturePrice / avgPrice else 0

/-- The per-week metrics record built by `findRepresentativeWeeks`
(`volatility` stores the variance; the source stores its square root, see
`calculateVariance`). -/
structure WeekMetric where
  data : List AlignedRecord
  startDate : ℤ
  volatility : ℚ
  negativeHours : ℕ
  avgCapture : ℚ
deriving DecidableEq, Repr

/-- A placeholder metric: reading the selected element of an empty list would
be `undefined` in the source; the embedding returns `none` in that case. -/
def dummyWeekMetric : WeekMetric := ⟨[], 0, 0, 0, 0⟩

/-- The per-window metrics list `findRepresentativeWeeks` builds. -/
def weekMetricsOf (data : List AlignedRecord) : List WeekMetric :=
  (groupByWeek data).map fun week =>
    { data := week
      startDate := (week.headD ⟨0, 0, 0⟩).timestamp
      volatility := calculateVariance (week.map (·.price))
      negativeHours := (week.filter fun d => d.price < 0 ∧ d.output > 0).length
      avgCapture := calculateWeekCaptureRate week }

/-- `Compute.findRepresentativeWeeks`: classify weekly windows and pick the
median-volatility, the highest-volatility and the most-negative-hours weeks.
`none` models the source's undefined results on an input with no windows. -/
def findRepresentativeWeeks (data : List AlignedRecord) :
    Option (WeekMetric × WeekMetric × WeekMetric) :=
  let weekMetrics := weekMetricsOf data
  if weekMetrics.length = 0 then none
  else
    let sortedByVolatility := weekMetrics.insertionSort fun a b => a.volatility ≤ b.volatility
    let medianIdx := sortedByVolatility.length / 2
    let typical := sortedByVolatility.getD medianIdx dummyWeekMetric
    let volatile := sortedByVolatility.getLastD dummyWeekMetric
    let sortedByNegative := weekMetrics.insertionSort fun a b => b.negativeHours ≤ a.negativeHours
    let negative := sortedByNegative.headD dummyWeekMetric
    some (typical, volatile, negative)

instance : IsTotal WeekMetric fun a b => a.volatility ≤ b.volatility :=
  ⟨fun a b => le_total a.volatility b.volatility⟩

instance : IsTrans WeekMetric fun a b => a.volatility ≤ b.volatility :=
  ⟨fun _ _ _ h1 h2 => le_trans h1 h2⟩

instance : IsRefl WeekMetric fun a b => a.volatility ≤ b.volatility :=
  ⟨fun _ => le_refl _⟩

section Helpers

variable {α κ : Type} [DecidableEq α]

theorem mem_insertNew {acc : List α} {a x : α} :
    x ∈ insertNew acc a ↔ x ∈ acc ∨ x = a := by
  unfold insertNew
  split <;> simp_all <;> tauto

theorem mem_foldl_insertNew (l : List α) (acc : List α) (x : α) :
    x ∈ l.foldl insertNew acc ↔ x ∈ acc ∨ x ∈ l := by
  induction l generalizing acc with
  | nil => simp
  | cons a as ih => simp [List.foldl_cons, ih, mem_insertNew]; tauto

theorem nodup_insertNew {acc : List α} (h : acc.Nodup) (a : α) :
    (insertNew acc a).Nodup := by
  unfold insertNew
  split
  · exact h
  · simpa [List.nodup_append] using ⟨h, by assumption⟩

theorem nodup_foldl_insertNew (l : List α) (acc : List α) (h : acc.Nodup) :
    (l.foldl insertNew acc).Nodup := by
  induction l generalizing acc with
  | nil => exact h
  | cons a as ih => exact ih _ (nodup_insertNew h a)

theorem mem_firstDedup {l : List α} {x : α} : x ∈ firstDedup l ↔ x ∈ l := by
  unfold firstDedup
  simp [mem_foldl_insertNew]

theorem nodup_firstDedup (l : List α) : (firstDedup l).Nodup :=
  nodup_foldl_insertNew l [] List.nodup_nil

theorem foldl_insertNew_of_subset {l acc : List α} (h : ∀ x ∈ l, x ∈ acc) :
    l.foldl insertNew acc = acc := by
  induction l with
  | nil => rfl
  | cons a as ih =>
    have ha : insertNew acc a = acc := by
      unfold insertNew
      rw [if_pos (h a (by simp))]
    rw [List.foldl_cons, ha]
    exact ih fun x hx => h x (by simp [hx])

theorem firstDedup_const {l : List α} {k : α} (h : ∀ x ∈ l, x = k) (hne : l ≠ []) :
    firstDedup l = [k] := by
  cases l with
  | nil => exact absurd rfl hne
  | cons a as =>
    unfold firstDedup
    rw [List.foldl_cons]
    have ha : insertNew [] a = [k] := by
      simp [insertNew, h a (by simp)]
    rw [ha]
    exact foldl_insertNew_of_subset fun x hx => by simp [h x (by simp [hx])]

theorem groupByKey_const [DecidableEq κ] {key : α → κ} {data : List α} {k : κ}
    (h : ∀ d ∈ data, key d = k) (hne : data ≠ []) :
    groupByKey key data = [(k, data)] := by
  unfold groupByKey
  rw [firstDedup_const (l := data.map key) (by simpa using h) (by simpa using hne)]
  simp only [List.map_cons, List.map_nil]
  congr 1
  rw [Prod.mk.injEq]
  exact ⟨rfl, List.filter_eq_self.mpr fun a ha => by simp [h a ha]⟩

theorem mem_of_mem_groupByKey [DecidableEq κ] {key : α → κ} {data : List α}
    {g : κ × List α} (hg : g ∈ groupByKey key data) {x : α} (hx : x ∈ g.2) :
    x ∈ data := by
  unfold groupByKey at hg
  obtain ⟨k, -, rfl⟩ := List.mem_map.mp hg
  exact List.mem_of_mem_filter hx

end Helpers

section AlignProofs

/-- The timestamps of the join step are the input timestamps at which both
lookups succeed. -/
theorem alignCore_map_timestamp (pm vm : ℤ → Option ℚ) (ts : List ℤ) :
    (ts.filterMap fun t =>
      match pm t, vm t with
      | some price, some output => some (⟨t, price, output⟩ : AlignedRecord)
      | _, _ => none).map (·.timestamp) =
    ts.filter fun t => (pm t).isSome ∧ (vm t).isSome := by
  induction ts with
  | nil => rfl
  | cons t rest ih =>
    rcases hp : pm t with - | price <;> rcases hv : vm t with - | output <;>
      simp [List.filterMap_cons, List.filter_cons, hp, hv, ih]

theorem isSome_mapGetLast {m : List (ℤ × ℚ)} {k : ℤ} :
    (mapGetLast m k).isSome ↔ k ∈ m.map Prod.fst := by
  unfold mapGetLast
  rw [show ∀ (o : Option (ℤ × ℚ)), (o.map (·.2)).isSome = o.isSome by rintro (- | p) <;> rfl]
  rw [List.getLast?_isSome]
  constructor
  · intro h
    obtain ⟨p, hp⟩ := List.exists_mem_of_ne_nil _ h
    have := List.mem_filter.mp hp
    exact List.mem_map.mpr ⟨p, this.1, by simpa using this.2⟩
  · intro h
    obtain ⟨p, hp, hk⟩ := List.mem_map.mp h
    intro hnil
    have : p ∈ List.filter (fun p => p.1 = k) m :=
      List.mem_filter.mpr ⟨hp, by simp [hk]⟩
    simp [hnil] at this

/-- `alignData` unfolded (the `let`s of the source, zeta-reduced). -/
theorem alignData_def (prices : List PricePoint) (pvProfile : List OutputPoint) :
    alignData prices pvProfile =
    ((firstDedup (prices.map (·.timestamp) ++ pvProfile.map (·.timestamp))).filterMap
      fun ts =>
        match mapGetLast (prices.map fun p => (p.timestamp, p.price)) ts,
              mapGetLast (pvProfile.map fun p => (p.timestamp, p.output)) ts with
        | some price, some output => some ⟨ts, price, output⟩
        | _, _ => none).insertionSort fun a b => a.timestamp ≤ b.timestamp := rfl

/-- The timestamp list of `alignData`'s output is a permutation of the shared
timestamps, in the join's own order. -/
theorem alignData_map_timestamp_perm (prices : List PricePoint) (pvProfile : List OutputPoint) :
    ((alignData prices pvProfile).map (·.timestamp)).Perm
      ((firstDedup (prices.map (·.timestamp) ++ pvProfile.map (·.timestamp))).filter
        fun t => (mapGetLast (prices.map fun p => (p.timestamp, p.price)) t).isSome ∧
          (mapGetLast (pvProfile.map fun p => (p.timestamp, p.output)) t).isSome) := by
  rw [alignData_def]
  refine ((List.perm_insertionSort _ _).map _).trans ?_
  rw [alignCore_map_timestamp]

theorem mem_alignData_map_timestamp {prices : List PricePoint}
    {pvProfile : List OutputPoint} {ts : ℤ} :
    ts ∈ (alignData prices pvProfile).map (·.timestamp) ↔
      ts ∈ prices.map (·.timestamp) ∧ ts ∈ pvProfile.map (·.timestamp) := by
  rw [(alignData_map_timestamp_perm prices pvProfile).mem_iff]
  rw [List.mem_filter]
  have hp : (mapGetLast (prices.map fun p => (p.timestamp, p.price)) ts).isSome ↔
      ts ∈ prices.map (·.timestamp) := by
    rw [isSome_mapGetLast, List.map_map]
    rfl
  have hv : (mapGetLast (pvProfile.map fun p => (p.timestamp, p.output)) ts).isSome ↔
      ts ∈ pvProfile.map (·.timestamp) := by
    rw [isSome_mapGetLast, List.map_map]
    rfl
  rw [mem_firstDedup, List.mem_append]
  simp only [decide_eq_true_eq, hp, hv]
  tauto

theorem nodup_alignData_map_timestamp (prices : List PricePoint)
    (pvProfile : List OutputPoint) :
    ((alignData prices pvProfile).map (·.timestamp)).Nodup :=
  ((alignData_map_timestamp_perm prices pvProfile).nodup_iff).mpr
    ((nodup_firstDedup _).filter _)

/-- C1: `alignData` returns the records whose timestamp set is exactly the
intersection of the inputs' timestamp sets, strictly ascending by timestamp
(hence duplicate-free), of length at most `min |prices| |pvProfile|`, and it
is empty exactly when the inputs share no timestamp. -/
theorem alignData_intersection (prices : List PricePoint) (pvProfile : List OutputPoint) :
    (∀ ts : ℤ, ts ∈ (alignData prices pvProfile).map (·.timestamp) ↔
      ts ∈ prices.map (·.timestamp) ∧ ts ∈ pvProfile.map (·.timestamp)) ∧
    (alignData prices pvProfile).Pairwise (fun a b => a.timestamp < b.timestamp) ∧
    (alignData prices pvProfile).length ≤ min prices.length pvProfile.length ∧
    (alignData prices pvProfile = [] ↔
      ∀ ts : ℤ, ¬(ts ∈ prices.map (·.timestamp) ∧ ts ∈ pvProfile.map (·.timestamp))) := by
  have hnd := nodup_alignData_map_timestamp prices pvProfile
  have hpairne : (alignData prices pvProfile).Pairwise
      fun a b => a.timestamp ≠ b.timestamp := by
    rw [List.Nodup, List.pairwise_map] at hnd
    exact hnd
  refine ⟨fun ts => mem_alignData_map_timestamp, ?_, ?_, ?_⟩
  · have hs : List.Sorted (fun a b => a.timestamp ≤ b.timestamp)
        (alignData prices pvProfile) := by
      rw [alignData_def]
      exact List.sorted_insertionSort _ _
    exact (hs.and hpairne).imp fun h => lt_of_le_of_ne h.1 h.2
  · have hsub1 : (alignData prices pvProfile).map (·.timestamp) ⊆
        prices.map (·.timestamp) :=
      fun t ht => (mem_alignData_map_timestamp.mp ht).1
    have hsub2 : (alignData prices pvProfile).map (·.timestamp) ⊆
        pvProfile.map (·.timestamp) :=
      fun t ht => (mem_alignData_map_timestamp.mp ht).2
    have h1 := (List.subperm_of_subset hnd hsub1).length_le
    have h2 := (List.subperm_of_subset hnd hsub2).length_le
    simp only [List.length_map] at h1 h2
    exact le_min h1 h2
  · constructor
    · intro hnil ts hts
      have : ts ∈ (alignData prices pvProfile).map (·.timestamp) :=
        mem_alignData_map_timestamp.mpr hts
      simp [hnil] at this
    · intro h
      rcases hcase : alignData prices pvProfile with - | ⟨r, rest⟩
      · rfl
      · exfalso
        refine h r.timestamp (mem_alignData_map_timestamp.mp ?_)
        rw [hcase]
        simp

end AlignProofs

/-- C2: `calculateKPIs` fails with the no-data error exactly on an empty
input series; every nonempty input produces a fully populated result (the
embedding is total past the guard: every division is guarded). -/
theorem calculateKPIs_none_iff (data : List AlignedRecord) (capacityMW : ℚ)
    (options : KPIOptions) :
    calculateKPIs data capacityMW options = none ↔ data = [] := by
  unfold calculateKPIs
  rcases data with - | ⟨d, rest⟩ <;> simp

section RawMetrics

/-- Unrounded baseload average, as computed before the result boundary. -/
def baseloadAvgRawOf (data : List AlignedRecord) : ℚ :=
  calculateMean (data.map (·.price))

/-- Unrounded total production. -/
def totalProductionRawOf (data : List AlignedRecord) : ℚ :=
  (data.map (·.output)).sum

/-- Unrounded capture price. -/
def capturePriceRawOf (data : List AlignedRecord) : ℚ :=
  if totalProductionRawOf data > 0 then
    (data.map fun d => d.price * d.output).sum / totalProductionRawOf data
  else 0

/-- Unrounded capture rate. -/
def captureRateRawOf (data : List AlignedRecord) : ℚ :=
  if baseloadAvgRawOf data > 0 then
    capturePriceRawOf data / baseloadAvgRawOf data * 100
  else 0

/-- Unrounded negative-hours energy. -/
def negativeMWhRawOf (data : List AlignedRecord) : ℚ :=
  ((data.filter fun d => d.price < 0 ∧ d.output > 0).map (·.output)).sum

/-- Unrounded negative-energy percentage. -/
def negativePercentageRawOf (data : List AlignedRecord) : ℚ :=
  if totalProductionRawOf data > 0 then
    negativeMWhRawOf data / totalProductionRawOf data * 100
  else 0

/-- Unrounded merchant revenue under the optional price floor. -/
def merchantRevenueRawOf (data : List AlignedRecord) (options : KPIOptions) : ℚ :=
  (data.map fun d =>
    (match options.floorPrice with
     | some f => max d.price f
     | none => d.price) * d.output).sum

end RawMetrics

/-- C5 (amended): every scalar metric is produced by applying a rounding
exactly once, at the result boundary, to the full-precision value —
`baseloadAvg` and `capturePrice` to 2 decimals, `captureRate` and
`negativePercentage` to 1 decimal, and `merchantRevenue`, `ppaRevenue`,
`negativeMWh` and `totalProduction` to whole numbers (`Math.round`), while
the counts are exact integers. -/
theorem calculateKPIs_rounding (data : List AlignedRecord) (capacityMW : ℚ)
    (options : KPIOptions) (h : data ≠ []) :
    ∃ k, calculateKPIs data capacityMW options = some k ∧
      k.baseloadAvg = round2 (baseloadAvgRawOf data) ∧
      k.capturePrice = round2 (capturePriceRawOf data) ∧
      k.captureRate = round1 (captureRateRawOf data) ∧
      k.negativePercentage = round1 (negativePercentageRawOf data) ∧
      k.merchantRevenue = jround (merchantRevenueRawOf data options) ∧
      k.ppaRevenue = options.ppaPrice.map (fun pp => jround (totalProductionRawOf data * pp)) ∧
      k.negativeMWh = jround (negativeMWhRawOf data) ∧
      k.totalProduction = jround (totalProductionRawOf data) ∧
      k.negativeHoursCount = (data.filter fun d => d.price < 0 ∧ d.output > 0).length ∧
      k.dataPoints = data.length := by
  refine ⟨mkKPIs data options, ?_, ?_, ?_, ?_, ?_, ?_, ?_, ?_, ?_, ?_, ?_⟩
  · unfold calculateKPIs
    rw [if_neg (by simpa using h)]
  · rfl
  · rfl
  · rfl
  · rfl
  · rfl
  · simp only [mkKPIs, totalProductionRawOf, Option.map_map]
    rcases options.ppaPrice with - | pp <;> rfl
  · rfl
  · rfl
  · rfl
  · rfl

/-- C7 (amended): on a nonempty series whose prices all equal `V`, with
positive total production and `V > 0`, the returned capture price is `V`
(through the 2-decimal boundary rounding, so exactly `V` whenever `V` has at
most 2 decimals) and the capture rate is exactly 100. -/
theorem calculateKPIs_constant_price (data : List AlignedRecord) (capacityMW : ℚ)
    (options : KPIOptions) (V : ℚ) (hne : data ≠ [])
    (hp : ∀ d ∈ data, d.price = V) (hV : 0 < V)
    (hT : 0 < (data.map (·.output)).sum) :
    ∃ k, calculateKPIs data capacityMW options = some k ∧
      k.capturePrice = round2 V ∧ k.captureRate = 100 := by
  have hlen : (data.length : ℚ) ≠ 0 := by
    exact_mod_cast fun h0 => hne (List.length_eq_zero.mp h0)
  have hmean : calculateMean (data.map (·.price)) = V := by
    unfold calculateMean
    rw [if_neg (by simpa using fun h0 => hne (List.length_eq_zero.mp h0))]
    rw [List.map_congr_left fun d hd => hp d hd]
    simp only [List.map_const', List.sum_replicate, List.length_replicate, nsmul_eq_mul,
      List.length_map]
    rw [mul_comm]
    exact mul_div_cancel_right₀ V hlen
  have hws : (data.map fun d => d.price * d.output).sum = V * (data.map (·.output)).sum := by
    rw [List.map_congr_left (g := fun d => V * d.output) fun d hd => by rw [hp d hd]]
    exact List.sum_map_mul_left data (·.output) V
  refine ⟨mkKPIs data options, ?_, ?_, ?_⟩
  · unfold calculateKPIs
    rw [if_neg (by simpa using hne)]
  · show round2 (if (data.map (·.output)).sum > 0 then _ / _ else 0) = round2 V
    rw [if_pos hT, hws, mul_div_cancel_right₀ V (ne_of_gt hT)]
  · show round1 (if calculateMean (data.map (·.price)) > 0 then _ else 0) = 100
    rw [hmean, if_pos hV, if_pos hT, hws, mul_div_cancel_right₀ V (ne_of_gt hT),
      div_self (ne_of_gt hV)]
    norm_num [round1, jround]

/-- `percentile` of a one-element distribution is that element, whatever `p`. -/
theorem percentile_singleton (x p : ℚ) : percentile [x] p = x := by
  unfold percentile
  norm_num

/-- C8 (amended): when every record falls in one calendar month, the P50 risk
metric is that single month's revenue passed through the result boundary's
`Math.round` — hence exactly the month's revenue whenever it is whole. -/
theorem calculateKPIs_single_month_p50 (data : List AlignedRecord) (capacityMW : ℚ)
    (options : KPIOptions) (k : ℤ × ℕ) (hne : data ≠ [])
    (hk : ∀ d ∈ data, monthKeyOf d.timestamp = k) :
    ∃ kpi, calculateKPIs data capacityMW options = some kpi ∧
      kpi.riskMetrics.p50 = jround ((data.map fun d => d.price * d.output).sum) := by
  have hmr : calculateMonthlyRevenues data =
      [⟨k, (data.map fun d => d.price * d.output).sum, (data.map (·.output)).sum⟩] := by
    unfold calculateMonthlyRevenues
    rw [groupByKey_const hk hne]
    rfl
  have hrm : calculateRiskMetrics (calculateMonthlyRevenues data) =
      ⟨jround ((data.map fun d => d.price * d.output).sum),
       jround ((data.map fun d => d.price * d.output).sum),
       jround ((data.map fun d => d.price * d.output).sum)⟩ := by
    rw [hmr]
    unfold calculateRiskMetrics
    simp only [List.map_cons, List.map_nil, List.length_cons, List.length_nil]
    rw [if_neg (by norm_num)]
    simp [List.insertionSort, List.orderedInsert, percentile_singleton]
  refine ⟨mkKPIs data options, ?_, ?_⟩
  · unfold calculateKPIs
    rw [if_neg (by simpa using hne)]
  · show (calculateRiskMetrics (calculateMonthlyRevenues data)).p50 = _
    rw [hrm]

section BatteryProofs

/-- Every state a `scanl` passes through satisfies an invariant preserved by
the step function. -/
theorem scanl_invariant {σ β : Type} {f : σ → β → σ} {P : σ → Prop}
    (hf : ∀ s b, P s → P (f s b)) :
    ∀ (l : List β) (s : σ), P s → ∀ x ∈ List.scanl f s l, P x := by
  intro l
  induction l with
  | nil =>
    intro s hs x hx
    simp only [List.scanl_nil, List.mem_singleton] at hx
    rwa [hx]
  | cons b bs ih =>
    intro s hs x hx
    rw [List.scanl_cons] at hx
    rcases List.mem_cons.mp hx with rfl | hx'
    · exact hs
    · exact ih (f s b) (hf s b hs) x hx'

/-- A charging iteration keeps the state of charge within `[lo, maxSOC]`
provided `0 ≤ sqrtEfficiency ≤ 1`. -/
theorem chargeStep_soc_bounds {p maxS s lo : ℚ} (hs0 : 0 ≤ s) (hs1 : s ≤ 1)
    {st : BatteryDayState} {h : AlignedRecord}
    (hlo : lo ≤ st.soc) (hhi : st.soc ≤ maxS) :
    lo ≤ (chargeStep p maxS s st h).soc ∧ (chargeStep p maxS s st h).soc ≤ maxS := by
  unfold chargeStep
  by_cases hpos : min (min h.output p) (maxS - st.soc) * s > 0
  · rw [if_pos hpos]
    have hmin : min (min h.output p) (maxS - st.soc) ≤ maxS - st.soc :=
      min_le_right _ _
    have hminpos : 0 < min (min h.output p) (maxS - st.soc) := by
      by_contra hle
      push_neg at hle
      nlinarith
    constructor
    · simp only []
      nlinarith
    · simp only []
      nlinarith
  · rw [if_neg hpos]
    exact ⟨hlo, hhi⟩

/-- A discharging iteration keeps the state of charge within `[minSOC, hi]`. -/
theorem dischargeStep_soc_bounds {p lo s hi : ℚ}
    {st : BatteryDayState} {h : AlignedRecord}
    (hlo : lo ≤ st.soc) (hhi : st.soc ≤ hi) :
    lo ≤ (dischargeStep p lo s st h).soc ∧ (dischargeStep p lo s st h).soc ≤ hi := by
  unfold dischargeStep
  by_cases hpos : min p (st.soc - lo) > 0
  · rw [if_pos hpos]
    have := min_le_right p (st.soc - lo)
    constructor
    · simp only []
      linarith
    · simp only []
      linarith
  · rw [if_neg hpos]
    exact ⟨hlo, hhi⟩

/-- The last element of a list is one of its elements (default-valued form). -/
theorem getLastD_mem {α : Type} : ∀ (l : List α) (d : α), l ≠ [] → l.getLastD d ∈ l
  | [], _, h => absurd rfl h
  | [a], d, _ => by simp [List.getLastD]
  | a :: b :: bs, d, _ => by
    rw [List.getLastD_cons]
    exact List.mem_cons_of_mem _ (getLastD_mem (b :: bs) a (by simp))

/-- Each day's trace opens with the reset state: SOC at the 5% floor. -/
theorem socTraceDay_head (cfg : BatteryConfig) (s : ℚ) (day : List AlignedRecord) :
    (socTraceDay cfg s day).head? = some (BATTERY_MIN_SOC * cfg.energyMWh) := by
  unfold socTraceDay dayStates
  rcases h : chargeHoursOf cfg day with - | ⟨a, as⟩ <;> rfl

/-- C4: with a valid configuration (`powerMW > 0`, `energyMWh > 0`,
`efficiency ∈ (0, 1]`, and `sqrtEfficiency` a nonnegative square root bound of
the efficiency), every day's simulated state of charge starts at the 5% floor
(the daily reset) and stays within `[5%, 95%]` of `energyMWh` at every
simulated instant. -/
theorem simulateBattery_soc_bounds (data : List AlignedRecord) (cfg : BatteryConfig)
    (s : ℚ) (hp : 0 < cfg.powerMW) (he : 0 < cfg.energyMWh)
    (heff0 : 0 < cfg.efficiency) (heff1 : cfg.efficiency ≤ 1)
    (hs0 : 0 ≤ s) (hs2 : s * s ≤ cfg.efficiency) :
    ∀ day ∈ groupByDay data,
      (socTraceDay cfg s day).head? = some (BATTERY_MIN_SOC * cfg.energyMWh) ∧
      ∀ x ∈ socTraceDay cfg s day,
        BATTERY_MIN_SOC * cfg.energyMWh ≤ x ∧ x ≤ BATTERY_MAX_SOC * cfg.energyMWh := by
  have hs1 : s ≤ 1 := by nlinarith
  have hlohi : BATTERY_MIN_SOC * cfg.energyMWh ≤ BATTERY_MAX_SOC * cfg.energyMWh := by
    have : BATTERY_MIN_SOC ≤ BATTERY_MAX_SOC := by norm_num [BATTERY_MIN_SOC, BATTERY_MAX_SOC]
    nlinarith
  intro day hday
  constructor
  · exact socTraceDay_head cfg s day
  · intro x hx
    unfold socTraceDay dayStates at hx
    have hchargeAll := @scanl_invariant _ _
      (chargeStep cfg.powerMW (BATTERY_MAX_SOC * cfg.energyMWh) s)
      (fun st => BATTERY_MIN_SOC * cfg.energyMWh ≤ st.soc ∧
        st.soc ≤ BATTERY_MAX_SOC * cfg.energyMWh)
      (fun st b hst => chargeStep_soc_bounds hs0 hs1 hst.1 hst.2)
      (chargeHoursOf cfg day) (dayInit cfg) ⟨le_refl _, hlohi⟩
    have hlastP := hchargeAll _ (getLastD_mem _ (dayInit cfg)
      (by rcases h : chargeHoursOf cfg day with - | ⟨a, as⟩ <;> simp [List.scanl]))
    have hdisAll := @scanl_invariant _ _
      (dischargeStep cfg.powerMW (BATTERY_MIN_SOC * cfg.energyMWh) s)
      (fun st => BATTERY_MIN_SOC * cfg.energyMWh ≤ st.soc ∧
        st.soc ≤ BATTERY_MAX_SOC * cfg.energyMWh)
      (fun st b hst => dischargeStep_soc_bounds hst.1 hst.2)
      (dischargeHoursOf cfg day) _ hlastP
    rw [List.map_append] at hx
    rcases List.mem_append.mp hx with hx' | hx'
    · obtain ⟨st, hst, rfl⟩ := List.mem_map.mp hx'
      exact hchargeAll st hst
    · obtain ⟨st, hst, rfl⟩ := List.mem_map.mp hx'
      exact hdisAll st hst

end BatteryProofs

section NegAvoidedProofs

/-- Discharging never touches the `dayNegAvoided` accumulator. -/
theorem dischargeStep_negAvoided (p lo s : ℚ) (st : BatteryDayState)
    (h : AlignedRecord) :
    (dischargeStep p lo s st h).dayNegAvoided = st.dayNegAvoided := by
  unfold dischargeStep
  by_cases hc : min p (st.soc - lo) > 0 <;> simp [hc]

theorem foldl_dischargeStep_negAvoided (p lo s : ℚ) (l : List AlignedRecord)
    (st : BatteryDayState) :
    (l.foldl (dischargeStep p lo s) st).dayNegAvoided = st.dayNegAvoided := by
  induction l generalizing st with
  | nil => rfl
  | cons h t ih => rw [List.foldl_cons, ih, dischargeStep_negAvoided]

/-- A charging iteration leaves `dayNegAvoided` unchanged unless the hour's
price is negative. -/
theorem chargeStep_negAvoided_eq_of_nonneg (p hi s : ℚ) (st : BatteryDayState)
    {h : AlignedRecord} (hpr : ¬h.price < 0) :
    (chargeStep p hi s st h).dayNegAvoided = st.dayNegAvoided := by
  unfold chargeStep
  by_cases hc : min (min h.output p) (hi - st.soc) * s > 0 <;> simp [hc, hpr]

/-- If the charging loop changed the `dayNegAvoided` accumulator, some
charging candidate had a negative price. -/
theorem foldl_chargeStep_negAvoided_ne (p hi s : ℚ) (l : List AlignedRecord)
    (st : BatteryDayState)
    (hne : (l.foldl (chargeStep p hi s) st).dayNegAvoided ≠ st.dayNegAvoided) :
    ∃ h ∈ l, h.price < 0 := by
  induction l generalizing st with
  | nil => exact absurd rfl hne
  | cons h t ih =>
    rw [List.foldl_cons] at hne
    by_cases hpr : h.price < 0
    · exact ⟨h, by simp, hpr⟩
    · rw [← chargeStep_negAvoided_eq_of_nonneg p hi s st hpr] at hne
      obtain ⟨h', hh', hpr'⟩ := ih (chargeStep p hi s st h) hne
      exact ⟨h', by simp [hh'], hpr'⟩

/-- Charging never decreases `dayNegAvoided` when `sqrtEfficiency > 0`. -/
theorem chargeStep_negAvoided_mono (p hi : ℚ) {s : ℚ} (hs : 0 < s)
    (st : BatteryDayState) (h : AlignedRecord) :
    st.dayNegAvoided ≤ (chargeStep p hi s st h).dayNegAvoided := by
  unfold chargeStep
  by_cases hc : min (min h.output p) (hi - st.soc) * s > 0
  · have hdiv : 0 ≤ min (min h.output p) (hi - st.soc) * s / s :=
      div_nonneg (le_of_lt hc) (le_of_lt hs)
    simp only [hc, if_true]
    split <;> simp <;> linarith
  · simp [hc]

theorem foldl_chargeStep_negAvoided_mono (p hi : ℚ) {s : ℚ} (hs : 0 < s)
    (l : List AlignedRecord) (st : BatteryDayState) :
    st.dayNegAvoided ≤ (l.foldl (chargeStep p hi s) st).dayNegAvoided := by
  induction l generalizing st with
  | nil => exact le_refl _
  | cons h t ih =>
    rw [List.foldl_cons]
    exact le_trans (chargeStep_negAvoided_mono p hi hs st h) (ih _)

/-- A list sum of nonnegative rationals is positive only at a positive
element. -/
theorem exists_pos_of_sum_pos {γ : Type} {l : List γ} {f : γ → ℚ}
    (hnn : ∀ x ∈ l, 0 ≤ f x) (hpos : 0 < (l.map f).sum) : ∃ x ∈ l, 0 < f x := by
  induction l with
  | nil => simp at hpos
  | cons a t ih =>
    rw [List.map_cons, List.sum_cons] at hpos
    by_cases ha : 0 < f a
    · exact ⟨a, by simp, ha⟩
    · push_neg at ha
      obtain ⟨x, hx, hfx⟩ := ih (fun x hx => hnn x (by simp [hx])) (by linarith)
      exact ⟨x, by simp [hx], hfx⟩

/-- A list sum of nonnegative rationals with a positive member is positive. -/
theorem sum_pos_of_mem_pos {γ : Type} {l : List γ} {f : γ → ℚ}
    (hnn : ∀ x ∈ l, 0 ≤ f x) {x : γ} (hx : x ∈ l) (hfx : 0 < f x) :
    0 < (l.map f).sum := by
  induction l with
  | nil => cases hx
  | cons a t ih =>
    rw [List.map_cons, List.sum_cons]
    have htnn : (0 : ℚ) ≤ (t.map f).sum :=
      List.sum_nonneg fun y hy => by
        obtain ⟨z, hz, rfl⟩ := List.mem_map.mp hy
        exact hnn z (by simp [hz])
    rcases List.mem_cons.mp hx with rfl | hx'
    · linarith
    · have := ih (fun y hy => hnn y (by simp [hy])) hx'
      have hann := hnn a (by simp)
      linarith

/-- Charging candidates come from the day's records and produce. -/
theorem chargeHoursOf_mem {cfg : BatteryConfig} {day : List AlignedRecord}
    {h : AlignedRecord} (hm : h ∈ chargeHoursOf cfg day) :
    h ∈ day ∧ h.output > 0 := by
  unfold chargeHoursOf at hm
  have hf := List.mem_of_mem_take hm
  refine ⟨?_, by simpa using (List.mem_filter.mp hf).2⟩
  have := List.mem_of_mem_filter hf
  unfold sortedHoursOf at this
  exact (List.perm_insertionSort _ day).subset this

/-- C10: the `negativeReduction` ratio is safe — whenever the accumulated
`totalNegativeAvoided` is positive, the whole-series denominator (production
during negative-price producing hours) is strictly positive, for any series
with nonnegative outputs and any positive `sqrtEfficiency`. -/
theorem negativeReduction_denominator_pos (data : List AlignedRecord)
    (cfg : BatteryConfig) (s : ℚ) (hout : ∀ d ∈ data, 0 ≤ d.output) (hs : 0 < s)
    (hpos : 0 < totalNegativeAvoidedOf cfg s data) :
    0 < negativeDenominatorOf data := by
  unfold totalNegativeAvoidedOf at hpos
  have hdaynn : ∀ day ∈ groupByDay data, 0 ≤ (dayFinal cfg s day).dayNegAvoided := by
    intro day hday
    unfold dayFinal
    rw [foldl_dischargeStep_negAvoided]
    exact foldl_chargeStep_negAvoided_mono _ _ hs _ _
  obtain ⟨day, hday, hdaypos⟩ := exists_pos_of_sum_pos hdaynn hpos
  have hchanged : ((chargeHoursOf cfg day).foldl
      (chargeStep cfg.powerMW (BATTERY_MAX_SOC * cfg.energyMWh) s)
      (dayInit cfg)).dayNegAvoided ≠ (dayInit cfg).dayNegAvoided := by
    unfold dayFinal at hdaypos
    rw [foldl_dischargeStep_negAvoided] at hdaypos
    intro heq
    rw [heq] at hdaypos
    exact absurd hdaypos (by norm_num [dayInit])
  obtain ⟨h, hh, hpr⟩ := foldl_chargeStep_negAvoided_ne _ _ _ _ _ hchanged
  obtain ⟨hhday, hhout⟩ := chargeHoursOf_mem hh
  have hhdata : h ∈ data := by
    unfold groupByDay at hday
    obtain ⟨g, hg, rfl⟩ := List.mem_map.mp hday
    exact mem_of_mem_groupByKey hg hhday
  unfold negativeDenominatorOf
  have hmemf : h ∈ data.filter fun d => decide (d.price < 0 ∧ d.output > 0) :=
    List.mem_filter.mpr ⟨hhdata, by simp [hpr, hhout]⟩
  exact sum_pos_of_mem_pos
    (fun d hd => hout d (List.mem_of_mem_filter hd)) hmemf hhout

end NegAvoidedProofs

section WeekProofs

/-- The windows cover a prefix of the series; what is dropped is a final
remainder of fewer than 120 records. -/
theorem groupByWeekAux_flatten (cur rest : List AlignedRecord) :
    ∃ r, (groupByWeekAux cur rest).flatten ++ r = cur ++ rest ∧ r.length < 120 := by
  induction rest generalizing cur with
  | nil =>
    by_cases h : 120 ≤ cur.length
    · exact ⟨[], by simp [groupByWeekAux, h], by norm_num⟩
    · exact ⟨cur, by simp [groupByWeekAux, h], by omega⟩
  | cons d ds ih =>
    unfold groupByWeekAux
    by_cases h : cur.length < 168
    · rw [if_pos h]
      obtain ⟨r, hr, hlen⟩ := ih (cur ++ [d])
      exact ⟨r, by rw [hr]; simp, hlen⟩
    · rw [if_neg h]
      obtain ⟨r, hr, hlen⟩ := ih [d]
      refine ⟨r, ?_, hlen⟩
      rw [List.flatten_cons, List.append_assoc, hr]
      simp

/-- Every kept window has between 120 and 168 records. -/
theorem groupByWeekAux_lengths (cur rest : List AlignedRecord)
    (hcur : cur.length ≤ 168) :
    ∀ w ∈ groupByWeekAux cur rest, 120 ≤ w.length ∧ w.length ≤ 168 := by
  induction rest generalizing cur with
  | nil =>
    intro w hw
    unfold groupByWeekAux at hw
    by_cases h : 120 ≤ cur.length
    · rw [if_pos h] at hw
      simp only [List.mem_singleton] at hw
      subst hw
      exact ⟨h, hcur⟩
    · rw [if_neg h] at hw
      cases hw
  | cons d ds ih =>
    intro w hw
    unfold groupByWeekAux at hw
    by_cases h : cur.length < 168
    · rw [if_pos h] at hw
      exact ih (cur ++ [d]) (by simp; omega) w hw
    · rw [if_neg h] at hw
      rcases List.mem_cons.mp hw with rfl | hw'
      · exact ⟨by omega, hcur⟩
      · exact ih [d] (by simp) w hw'

/-- Every window except possibly the last holds exactly 168 records. -/
theorem groupByWeekAux_dropLast (cur rest : List AlignedRecord)
    (hcur : cur.length ≤ 168) :
    ∀ w ∈ (groupByWeekAux cur rest).dropLast, w.length = 168 := by
  induction rest generalizing cur with
  | nil =>
    intro w hw
    unfold groupByWeekAux at hw
    by_cases h : 120 ≤ cur.length
    · rw [if_pos h] at hw
      simp at hw
    · rw [if_neg h] at hw
      cases hw
  | cons d ds ih =>
    intro w hw
    unfold groupByWeekAux at hw
    by_cases h : cur.length < 168
    · rw [if_pos h] at hw
      exact ih (cur ++ [d]) (by simp; omega) w hw
    · rw [if_neg h] at hw
      rcases hds : groupByWeekAux [d] ds with - | ⟨w0, ws⟩
      · rw [hds] at hw
        simp at hw
      · rw [hds, List.dropLast_cons₂] at hw
        rcases List.mem_cons.mp hw with rfl | hw'
        · omega
        · rw [← hds] at hw'
          exact ih [d] (by simp) w hw'

/-- The head of a list is one of its elements (default-valued form). -/
theorem headD_mem {α : Type} (l : List α) (d : α) (h : l ≠ []) : l.headD d ∈ l := by
  cases l with
  | nil => exact absurd rfl h
  | cons a t => simp

/-- In a volatility-sorted list every element is bounded by the last one. -/
theorem sorted_le_getLastD {l : List WeekMetric}
    (hs : List.Sorted (fun a b => a.volatility ≤ b.volatility) l)
    {x : WeekMetric} (hx : x ∈ l) (d : WeekMetric) :
    x.volatility ≤ (l.getLastD d).volatility := by
  induction l generalizing d with
  | nil => cases hx
  | cons a t ih =>
    rw [List.sorted_cons] at hs
    rcases List.mem_cons.mp hx with rfl | hx'
    · cases t with
      | nil => simp [List.getLastD]
      | cons b bs =>
        rw [List.getLastD_cons]
        exact hs.1 _ (getLastD_mem (b :: bs) x (by simp))
    · cases t with
      | nil => cases hx'
      | cons b bs =>
        rw [List.getLastD_cons]
        exact ih hs.2 hx' a

/-- The three selected weeks are metrics of actual windows, and the volatile
pick's volatility dominates the typical pick's. -/
theorem findRepresentativeWeeks_spec (data : List AlignedRecord)
    (hne : weekMetricsOf data ≠ []) :
    ∃ t v n, findRepresentativeWeeks data = some (t, v, n) ∧
      t ∈ weekMetricsOf data ∧ v ∈ weekMetricsOf data ∧ n ∈ weekMetricsOf data ∧
      t.volatility ≤ v.volatility := by
  have hlen0 : weekMetricsOf data ≠ [] := hne
  set sv := (weekMetricsOf data).insertionSort
    (fun a b => a.volatility ≤ b.volatility) with hsv
  set sn := (weekMetricsOf data).insertionSort
    (fun a b => b.negativeHours ≤ a.negativeHours) with hsn
  have hsvperm : sv.Perm (weekMetricsOf data) := List.perm_insertionSort _ _
  have hsnperm : sn.Perm (weekMetricsOf data) := List.perm_insertionSort _ _
  have hsvne : sv ≠ [] := by
    intro h0
    rw [h0] at hsvperm
    exact hlen0 (List.Perm.eq_nil hsvperm.symm)
  have hsnne : sn ≠ [] := by
    intro h0
    rw [h0] at hsnperm
    exact hlen0 (List.Perm.eq_nil hsnperm.symm)
  have hsvpos : 0 < sv.length := List.length_pos.mpr hsvne
  have hidx : sv.length / 2 < sv.length := Nat.div_lt_self hsvpos (by norm_num)
  have htyp_mem : sv.getD (sv.length / 2) dummyWeekMetric ∈ sv := by
    rw [List.getD_eq_getElem sv dummyWeekMetric hidx]
    exact List.getElem_mem hidx
  have hvol_mem : sv.getLastD dummyWeekMetric ∈ sv := getLastD_mem sv _ hsvne
  have hneg_mem : sn.headD dummyWeekMetric ∈ sn := headD_mem sn _ hsnne
  have hsorted : List.Sorted (fun a b => a.volatility ≤ b.volatility) sv := by
    rw [hsv]
    exact List.sorted_insertionSort _ _
  refine ⟨sv.getD (sv.length / 2) dummyWeekMetric, sv.getLastD dummyWeekMetric,
    sn.headD dummyWeekMetric, ?_, hsvperm.subset htyp_mem, hsvperm.subset hvol_mem,
    hsnperm.subset hneg_mem, sorted_le_getLastD hsorted htyp_mem _⟩
  unfold findRepresentativeWeeks
  rw [if_neg (by simpa [List.length_eq_zero] using hlen0)]

/-- C9: `groupByWeek` cuts the series into consecutive windows — all of 168
records except a kept final remainder of 120 to 168 records, anything shorter
being discarded — and on any input holding at least one full week the
selector returns picks, each a window of at least 120 records, with the
volatile pick's price standard deviation at least the typical pick's. -/
theorem findRepresentativeWeeks_windows (data : List AlignedRecord)
    (h168 : 168 ≤ data.length) :
    (∀ w ∈ groupByWeek data, 120 ≤ w.length ∧ w.length ≤ 168) ∧
    (∀ w ∈ (groupByWeek data).dropLast, w.length = 168) ∧
    (∃ r, (groupByWeek data).flatten ++ r = data ∧ r.length < 120) ∧
    (∃ t v n, findRepresentativeWeeks data = some (t, v, n) ∧
      120 ≤ t.data.length ∧ 120 ≤ v.data.length ∧ 120 ≤ n.data.length ∧
      Real.sqrt (t.volatility : ℝ) ≤ Real.sqrt (v.volatility : ℝ)) := by
  have hW : ∀ w ∈ groupByWeek data, 120 ≤ w.length ∧ w.length ≤ 168 :=
    groupByWeekAux_lengths [] data (by simp)
  obtain ⟨r, hflat, hrlen⟩ := groupByWeekAux_flatten [] data
  rw [List.nil_append] at hflat
  have hWne : groupByWeek data ≠ [] := by
    intro h0
    unfold groupByWeek at h0
    rw [h0] at hflat
    simp only [List.flatten_nil, List.nil_append] at hflat
    rw [hflat] at hrlen
    omega
  have hwm : weekMetricsOf data ≠ [] := by
    unfold weekMetricsOf
    simpa using hWne
  obtain ⟨t, v, n, hfr, ht, hv, hn, hrel⟩ := findRepresentativeWeeks_spec data hwm
  have hdata_len : ∀ {m : WeekMetric}, m ∈ weekMetricsOf data → 120 ≤ m.data.length := by
    intro m hm
    unfold weekMetricsOf at hm
    obtain ⟨week, hweek, rfl⟩ := List.mem_map.mp hm
    exact (hW week hweek).1
  exact ⟨hW, groupByWeekAux_dropLast [] data (by simp), ⟨r, hflat, hrlen⟩,
    t, v, n, hfr, hdata_len ht, hdata_len hv, hdata_len hn,
    Real.sqrt_le_sqrt (by exact_mod_cast hrel)⟩

end WeekProofs

section HistogramProofs

theorem foldl_min_le_init (t : List ℚ) (a : ℚ) : t.foldl min a ≤ a := by
  induction t generalizing a with
  | nil => exact le_refl a
  | cons b bs ih => exact le_trans (ih (min a b)) (min_le_left a b)

theorem foldl_min_le_mem (t : List ℚ) (a : ℚ) {x : ℚ} (hx : x ∈ t) :
    t.foldl min a ≤ x := by
  induction t generalizing a with
  | nil => cases hx
  | cons b bs ih =>
    rcases List.mem_cons.mp hx with rfl | hx'
    · exact le_trans (foldl_min_le_init bs (min a x)) (min_le_right a x)
    · exact ih (min a b) hx'

theorem jsMinL_le {l : List ℚ} {x : ℚ} (hx : x ∈ l) : jsMinL l ≤ x := by
  cases l with
  | nil => cases hx
  | cons a t =>
    rcases List.mem_cons.mp hx with rfl | hx'
    · exact foldl_min_le_init t x
    · exact foldl_min_le_mem t a hx'

theorem init_le_foldl_max (t : List ℚ) (a : ℚ) : a ≤ t.foldl max a := by
  induction t generalizing a with
  | nil => exact le_refl a
  | cons b bs ih => exact le_trans (le_max_left a b) (ih (max a b))

theorem mem_le_foldl_max (t : List ℚ) (a : ℚ) {x : ℚ} (hx : x ∈ t) :
    x ≤ t.foldl max a := by
  induction t generalizing a with
  | nil => cases hx
  | cons b bs ih =>
    rcases List.mem_cons.mp hx with rfl | hx'
    · exact le_trans (le_max_right a x) (init_le_foldl_max bs (max a x))
    · exact ih (max a b) hx'

theorem le_jsMaxL {l : List ℚ} {x : ℚ} (hx : x ∈ l) : x ≤ jsMaxL l := by
  cases l with
  | nil => cases hx
  | cons a t =>
    rcases List.mem_cons.mp hx with rfl | hx'
    · exact init_le_foldl_max t x
    · exact mem_le_foldl_max t a hx'

theorem sum_map_add_nat {β : Type} (l : List β) (f g : β → ℕ) :
    (l.map fun b => f b + g b).sum = (l.map f).sum + (l.map g).sum := by
  induction l with
  | nil => rfl
  | cons b bs ih => simp [ih]; omega

theorem countP_as_sum {β : Type} (l : List β) (Q : β → Bool) :
    l.countP Q = (l.map fun b => if Q b then 1 else 0).sum := by
  induction l with
  | nil => rfl
  | cons b bs ih =>
    rw [List.countP_cons, List.map_cons, List.sum_cons, ih]
    by_cases h : Q b <;> simp [h] <;> omega

/-- Double counting: summing per-bin counts over the bins equals summing
per-element bin multiplicities over the elements. -/
theorem sum_countP_swap {β γ : Type} (bins : List β) (xs : List γ) (Q : β → γ → Bool) :
    (bins.map fun b => xs.countP (Q b)).sum =
    (xs.map fun x => bins.countP fun b => Q b x).sum := by
  induction xs with
  | nil => simp [List.countP_nil]
  | cons x t ih =>
    rw [List.map_cons, List.sum_cons, ← ih]
    have hstep : (bins.map fun b => List.countP (Q b) (x :: t)).sum =
        (bins.map fun b => List.countP (Q b) t + if Q b x then 1 else 0).sum := by
      congr 1
      exact List.map_congr_left fun b _ => List.countP_cons (Q b) x t
    rw [hstep, sum_map_add_nat, ← countP_as_sum]
    omega

theorem countP_eq_one_of_unique {β : Type} {l : List β} {p : β → Bool}
    (hnd : l.Nodup) {a : β} (ha : a ∈ l) (hpa : p a = true)
    (hun : ∀ b ∈ l, p b = true → b = a) : l.countP p = 1 := by
  induction l with
  | nil => cases ha
  | cons b bs ih =>
    rw [List.countP_cons]
    have hbs := (List.nodup_cons.mp hnd).2
    have hbnotin := (List.nodup_cons.mp hnd).1
    rcases List.mem_cons.mp ha with rfl | ha'
    · rw [if_pos hpa]
      have h0 : bs.countP p = 0 := by
        rw [List.countP_eq_zero]
        intro x hx hpx
        exact hbnotin ((hun x (List.mem_cons_of_mem _ hx) hpx) ▸ hx)
      omega
    · have hb : ¬p b = true := fun hpb =>
        hbnotin ((hun b (List.mem_cons_self b bs) hpb) ▸ ha')
      rw [if_neg hb]
      have := ih hbs ha' fun x hx hpx => hun x (List.mem_cons_of_mem _ hx) hpx
      omega

/-- The floor of `p / 10` is pinned by any enclosing width-10 interval with
boundaries at multiples of 10. -/
theorem floor_div10_eq {p : ℚ} {z : ℤ}
    (h1 : ((10 * z : ℤ) : ℚ) ≤ p) (h2 : p < ((10 * z + 10 : ℤ) : ℚ)) :
    ⌊p / 10⌋ = z := by
  rw [Int.floor_eq_iff]
  constructor
  · rw [le_div_iff (by norm_num : (0 : ℚ) < 10)]
    push_cast at h1 ⊢
    linarith
  · rw [div_lt_iff (by norm_num : (0 : ℚ) < 10)]
    push_cast at h2 ⊢
    linarith

theorem binLows_nodup (data : List AlignedRecord) : (binLows data).Nodup := by
  unfold binLows
  exact (List.nodup_range _).map fun k1 k2 h => by omega

theorem mem_binLows {data : List AlignedRecord} {lo : ℤ} :
    lo ∈ binLows data ↔
      ∃ k : ℕ, k < (binMaxOf data - binMinOf data).toNat / 10 ∧
        lo = binMinOf data + 10 * k := by
  unfold binLows
  rw [List.mem_map]
  constructor
  · rintro ⟨k, hk, rfl⟩
    exact ⟨k, List.mem_range.mp hk, rfl⟩
  · rintro ⟨k, hk, rfl⟩
    exact ⟨k, List.mem_range.mpr hk, rfl⟩

/-- Every price strictly between the histogram's two boundaries lies in
exactly one bin. -/
theorem exists_unique_binLow (data : List AlignedRecord) {p : ℚ}
    (hlo : ((binMinOf data : ℤ) : ℚ) ≤ p) (hhi : p < ((binMaxOf data : ℤ) : ℚ)) :
    ∃ lo ∈ binLows data, inBin lo p ∧
      ∀ lo' ∈ binLows data, inBin lo' p → lo' = lo := by
  have h10 : (0 : ℚ) < 10 := by norm_num
  set a := ⌊jsMinL (data.map (·.price)) / 10⌋ with ha
  set b := ⌈jsMaxL (data.map (·.price)) / 10⌉ with hb
  have hmn : binMinOf data = 10 * a := rfl
  have hmx : binMaxOf data = 10 * b := rfl
  set j := ⌊p / 10⌋ with hj
  have haj : a ≤ j := by
    rw [hj]
    apply Int.le_floor.mpr
    rw [le_div_iff h10]
    rw [hmn] at hlo
    push_cast at hlo ⊢
    linarith
  have hjb : j < b := by
    rw [hj]
    apply Int.floor_lt.mpr
    rw [div_lt_iff h10]
    rw [hmx] at hhi
    push_cast at hhi ⊢
    linarith
  have hjin : inBin (10 * j) p := by
    constructor
    · push_cast
      have := Int.floor_le (p / 10)
      rw [← hj] at this
      calc ((10 : ℚ) * j) ≤ 10 * (p / 10) := by
            apply mul_le_mul_of_nonneg_left _ (by norm_num)
            exact_mod_cast this
        _ = p := by ring
    · push_cast
      have := Int.lt_floor_add_one (p / 10)
      rw [← hj] at this
      have h2 : p / 10 < (j : ℚ) + 1 := by exact_mod_cast this
      have := (div_lt_iff h10).mp h2
      linarith
  refine ⟨10 * j, ?_, hjin, ?_⟩
  · rw [mem_binLows]
    refine ⟨(j - a).toNat, by omega, by omega⟩
  · intro lo' hlo' hin'
    obtain ⟨k', -, rfl⟩ := mem_binLows.mp hlo'
    have : ⌊p / 10⌋ = a + k' := by
      apply floor_div10_eq
      · have := hin'.1
        rw [hmn] at this
        push_cast at this ⊢
        linarith
      · have := hin'.2
        rw [hmn] at this
        push_cast at this ⊢
        linarith
    rw [← hj] at this
    omega

/-- When every price lies in exactly one bin, the bin counts sum to the
population size. -/
theorem count_partition {lows : List ℤ} {prices : List ℚ}
    (hone : ∀ p ∈ prices, lows.countP (fun lo => decide (inBin lo p)) = 1) :
    (lows.map fun lo => prices.countP fun p => decide (inBin lo p)).sum =
      prices.length := by
  rw [sum_countP_swap lows prices fun lo p => decide (inBin lo p)]
  rw [List.map_congr_left hone]
  simp [List.map_const', List.sum_replicate, smul_eq_mul]

/-- When the bin counts sum to the population size, the exact per-bin
percentages sum to 100. -/
theorem pct_sum_eq_100 {lows : List ℤ} {prices : List ℚ}
    (hcnt : (lows.map fun lo => prices.countP fun p => decide (inBin lo p)).sum =
      prices.length)
    (hne : prices ≠ []) :
    (lows.map fun lo =>
      ((prices.countP fun p => decide (inBin lo p) : ℕ) : ℚ) /
        (prices.length : ℚ) * 100).sum = 100 := by
  have hT : ((prices.length : ℕ) : ℚ) ≠ 0 :=
    Nat.cast_ne_zero.mpr (by simpa [List.length_eq_zero] using hne)
  have hrw : (lows.map fun lo =>
      ((prices.countP fun p => decide (inBin lo p) : ℕ) : ℚ) /
        (prices.length : ℚ) * 100) =
      lows.map fun lo =>
        ((prices.countP fun p => decide (inBin lo p) : ℕ) : ℚ) *
          (100 / (prices.length : ℚ)) :=
    List.map_congr_left fun lo _ => by ring
  rw [hrw, List.sum_map_mul_right]
  have hcast : (lows.map fun lo =>
      ((prices.countP fun p => decide (inBin lo p) : ℕ) : ℚ)).sum =
      ((prices.length : ℕ) : ℚ) := by
    rw [show (lows.map fun lo =>
        ((prices.countP fun p => decide (inBin lo p) : ℕ) : ℚ)) =
        (lows.map fun lo => prices.countP fun p => decide (inBin lo p)).map
          (fun n : ℕ => (n : ℚ)) from by rw [List.map_map]; rfl]
    rw [← Nat.cast_list_sum, hcnt]
  rw [hcast]
  field_simp

/-- C6 (amended): on a nonempty series whose maximum price is not an exact
multiple of 10, the histogram's bins are the consecutive width-10 intervals
from `floor(min/10)·10` to `ceil(max/10)·10`, every price of each population
falls in exactly one bin, and the exact (pre-rounding) per-bin percentages of
each nonempty population sum to 100 — the returned `allPct`/`pvPct` fields
being those percentages rounded to 1 decimal.  (A price equal to the top
boundary — possible exactly when the maximum is a multiple of 10 — falls in
no bin and is dropped from the percentages.) -/
theorem calculatePriceDistribution_partition (data : List AlignedRecord)
    (hne : data ≠ [])
    (hmax : ¬∃ k : ℤ, jsMaxL (data.map (·.price)) = 10 * (k : ℚ)) :
    ((calculatePriceDistribution data).map (·.min) =
      (binLows data).map fun (lo : ℤ) => (lo : ℚ)) ∧
    (∀ i, i < (binLows data).length →
      (binLows data).getD i 0 = binMinOf data + 10 * (i : ℤ)) ∧
    ((binLows data).length = (binMaxOf data - binMinOf data).toNat / 10) ∧
    ((calculatePriceDistribution data).map (·.allPct) =
      (binLows data).map fun lo =>
        round1 ((((data.map (·.price)).countP fun p => decide (inBin lo p) : ℕ) : ℚ) /
          (((data.map (·.price)).length : ℕ) : ℚ) * 100)) ∧
    (∀ p ∈ data.map (·.price),
      (binLows data).countP (fun lo => decide (inBin lo p)) = 1) ∧
    (((binLows data).map fun lo =>
        (((data.map (·.price)).countP fun p => decide (inBin lo p) : ℕ) : ℚ) /
          (((data.map (·.price)).length : ℕ) : ℚ) * 100).sum = 100) ∧
    (((data.filter fun d => d.output > 0).map (·.price)) ≠ [] →
      (∀ p ∈ (data.filter fun d => d.output > 0).map (·.price),
        (binLows data).countP (fun lo => decide (inBin lo p)) = 1) ∧
      (((binLows data).map fun lo =>
          ((((data.filter fun d => d.output > 0).map (·.price)).countP
            fun p => decide (inBin lo p) : ℕ) : ℚ) /
            ((((data.filter fun d => d.output > 0).map (·.price)).length : ℕ) : ℚ) *
            100).sum = 100)) := by
  have hTne : data.map (·.price) ≠ [] := by simpa using hne
  have hMle : jsMaxL (data.map (·.price)) ≤ ((binMaxOf data : ℤ) : ℚ) := by
    unfold binMaxOf
    push_cast
    have := Int.le_ceil (jsMaxL (data.map (·.price)) / 10)
    calc jsMaxL (data.map (·.price))
        = 10 * (jsMaxL (data.map (·.price)) / 10) := by ring
      _ ≤ 10 * (⌈jsMaxL (data.map (·.price)) / 10⌉ : ℚ) := by
          apply mul_le_mul_of_nonneg_left this (by norm_num)
  have hMlt : jsMaxL (data.map (·.price)) < ((binMaxOf data : ℤ) : ℚ) := by
    rcases lt_or_eq_of_le hMle with h | h
    · exact h
    · exfalso
      have hcast : ((binMaxOf data : ℤ) : ℚ) =
          10 * (⌈jsMaxL (data.map (·.price)) / 10⌉ : ℚ) := by
        show ((10 * ⌈jsMaxL (data.map (·.price)) / 10⌉ : ℤ) : ℚ) = _
        push_cast
        ring
      exact hmax ⟨⌈jsMaxL (data.map (·.price)) / 10⌉, h.trans hcast⟩
  have hrange : ∀ p ∈ data.map (·.price),
      ((binMinOf data : ℤ) : ℚ) ≤ p ∧ p < ((binMaxOf data : ℤ) : ℚ) := by
    intro p hp
    constructor
    · unfold binMinOf
      push_cast
      have hfl := Int.floor_le (jsMinL (data.map (·.price)) / 10)
      calc ((10 : ℚ) * (⌊jsMinL (data.map (·.price)) / 10⌋ : ℚ))
          ≤ 10 * (jsMinL (data.map (·.price)) / 10) := by
            apply mul_le_mul_of_nonneg_left hfl (by norm_num)
        _ = jsMinL (data.map (·.price)) := by ring
        _ ≤ p := jsMinL_le hp
    · exact lt_of_le_of_lt (le_jsMaxL hp) hMlt
  have hone : ∀ p ∈ data.map (·.price),
      (binLows data).countP (fun lo => decide (inBin lo p)) = 1 := by
    intro p hp
    obtain ⟨hlo, hhi⟩ := hrange p hp
    obtain ⟨lo, hlomem, hloin, hlouniq⟩ := exists_unique_binLow data hlo hhi
    exact countP_eq_one_of_unique (binLows_nodup data) hlomem
      (decide_eq_true hloin) fun b hb hpb => hlouniq b hb (of_decide_eq_true hpb)
  have hpvsub : ∀ p ∈ (data.filter fun d => d.output > 0).map (·.price),
      p ∈ data.map (·.price) := by
    intro p hp
    obtain ⟨d, hd, rfl⟩ := List.mem_map.mp hp
    exact List.mem_map.mpr ⟨d, List.mem_of_mem_filter hd, rfl⟩
  have hpvone : ∀ p ∈ (data.filter fun d => d.output > 0).map (·.price),
      (binLows data).countP (fun lo => decide (inBin lo p)) = 1 :=
    fun p hp => hone p (hpvsub p hp)
  refine ⟨?_, ?_, ?_, ?_, hone, pct_sum_eq_100 (count_partition hone) hTne,
    fun hpvne => ⟨hpvone, pct_sum_eq_100 (count_partition hpvone) hpvne⟩⟩
  · simp only [calculatePriceDistribution]
    rw [List.map_map]
    apply List.map_congr_left
    intro lo hlo
    simp [Function.comp]
  · intro i hi
    unfold binLows at hi ⊢
    rw [List.getD_eq_getElem _ _ hi]
    simp
  · simp [binLows]
  · simp only [calculatePriceDistribution]
    rw [List.map_map]
    apply List.map_congr_left
    intro lo hlo
    show jround _ / 10 = round1 _
    unfold round1
    congr 1
    push_cast
    ring

end HistogramProofs

section ConcreteEvaluations

attribute [local semireducible] Rat.add Rat.sub Rat.mul Rat.inv Rat.ofScientific

/-- The spec's end-to-end example: 48 hourly records, prices alternating
100 and -5, output constantly 10. -/
def demo48 : List AlignedRecord :=
  (List.range 48).map fun (i : ℕ) =>
    { timestamp := 3600 * (i : ℤ)
      price := if i % 2 = 0 then 100 else -5
      output := 10 }

set_option maxRecDepth 10000 in
/-- C3: on the 48-record alternating example, the engine reports 24 negative
hours, 50.0% negative energy, capture price 47.5, baseload 47.5 and capture
rate 100.0. -/
theorem calculateKPIs_example48 :
    (calculateKPIs demo48 1 {}).map (fun k =>
      (k.negativeHoursCount, k.negativePercentage, k.capturePrice,
        k.baseloadAvg, k.captureRate)) =
    some (24, 50.0, 47.5, 47.5, 100.0) := by decide

/-- Input refuting the claim that `merchantRevenue` is returned at 2-decimal
precision: a merchant revenue of 0.01 comes back as `Math.round 0.01 = 0`. -/
def cexMerchant : List AlignedRecord := [⟨0, 1/100, 1⟩]

/-- C5 counterexample: the returned `merchantRevenue` is `Math.round` of the
raw revenue — an integer — not its 2-decimal rounding. -/
theorem merchantRevenue_rounding_cex :
    cexMerchant ≠ [] ∧
    (calculateKPIs cexMerchant 1 {}).map (·.merchantRevenue) = some 0 ∧
    round2 (merchantRevenueRawOf cexMerchant {}) = 1/100 ∧ (0 : ℚ) ≠ 1/100 := by
  refine ⟨by decide, by decide, by decide, by norm_num⟩

/-- C5 witness input. -/
def c5w : List AlignedRecord := [⟨0, 2, 3⟩]

theorem calculateKPIs_rounding_witness :
    c5w ≠ [] ∧
    ∃ k, calculateKPIs c5w 1 {} = some k ∧
      k.baseloadAvg = round2 (baseloadAvgRawOf c5w) ∧
      k.capturePrice = round2 (capturePriceRawOf c5w) ∧
      k.captureRate = round1 (captureRateRawOf c5w) ∧
      k.negativePercentage = round1 (negativePercentageRawOf c5w) ∧
      k.merchantRevenue = jround (merchantRevenueRawOf c5w {}) ∧
      k.ppaRevenue = (KPIOptions.ppaPrice {}).map
        (fun pp => jround (totalProductionRawOf c5w * pp)) ∧
      k.negativeMWh = jround (negativeMWhRawOf c5w) ∧
      k.totalProduction = jround (totalProductionRawOf c5w) ∧
      k.negativeHoursCount = (c5w.filter fun d => d.price < 0 ∧ d.output > 0).length ∧
      k.dataPoints = c5w.length :=
  ⟨by decide, calculateKPIs_rounding c5w 1 {} (by decide)⟩

/-- Input refuting the all-prices-in-a-bin claim: the maximum price 20 sits
on the top boundary and lands in no bin, so the percentages sum to 50. -/
def cexPD : List AlignedRecord := [⟨0, 5, 1⟩, ⟨3600, 20, 1⟩]

/-- C6 counterexample: on a nonempty input with maximum price 20 (a multiple
of 10), the price 20 of a producing hour falls in no bin and the returned
all-population percentages sum to 50, not 100. -/
theorem priceDistribution_cex :
    cexPD ≠ [] ∧ (20 : ℚ) ∈ cexPD.map (·.price) ∧
    (binLows cexPD).countP (fun lo => decide (inBin lo 20)) = 0 ∧
    ((calculatePriceDistribution cexPD).map (·.allPct)).sum = 50 := by decide

/-- C6 witness input: maximum price 15 is not a multiple of 10. -/
def c6w : List AlignedRecord := [⟨0, 5, 1⟩, ⟨3600, 15, 0⟩]

theorem calculatePriceDistribution_partition_witness :
    c6w ≠ [] ∧ (¬∃ k : ℤ, jsMaxL (c6w.map (·.price)) = 10 * (k : ℚ)) ∧
    (((calculatePriceDistribution c6w).map (·.min) =
      (binLows c6w).map fun (lo : ℤ) => (lo : ℚ)) ∧
    (∀ i, i < (binLows c6w).length →
      (binLows c6w).getD i 0 = binMinOf c6w + 10 * (i : ℤ)) ∧
    ((binLows c6w).length = (binMaxOf c6w - binMinOf c6w).toNat / 10) ∧
    ((calculatePriceDistribution c6w).map (·.allPct) =
      (binLows c6w).map fun lo =>
        round1 ((((c6w.map (·.price)).countP fun p => decide (inBin lo p) : ℕ) : ℚ) /
          (((c6w.map (·.price)).length : ℕ) : ℚ) * 100)) ∧
    (∀ p ∈ c6w.map (·.price),
      (binLows c6w).countP (fun lo => decide (inBin lo p)) = 1) ∧
    (((binLows c6w).map fun lo =>
        (((c6w.map (·.price)).countP fun p => decide (inBin lo p) : ℕ) : ℚ) /
          (((c6w.map (·.price)).length : ℕ) : ℚ) * 100).sum = 100) ∧
    (((c6w.filter fun d => d.output > 0).map (·.price)) ≠ [] →
      (∀ p ∈ (c6w.filter fun d => d.output > 0).map (·.price),
        (binLows c6w).countP (fun lo => decide (inBin lo p)) = 1) ∧
      (((binLows c6w).map fun lo =>
          ((((c6w.filter fun d => d.output > 0).map (·.price)).countP
            fun p => decide (inBin lo p) : ℕ) : ℚ) /
            ((((c6w.filter fun d => d.output > 0).map (·.price)).length : ℕ) : ℚ) *
            100).sum = 100))) := by
  have hmax : ¬∃ k : ℤ, jsMaxL (c6w.map (·.price)) = 10 * (k : ℚ) := by
    rintro ⟨k, hk⟩
    have h15 : jsMaxL (c6w.map (·.price)) = 15 := by decide
    rw [h15] at hk
    have h2 : ((2 * k : ℤ) : ℚ) = 3 := by push_cast; linarith
    have h3 : (2 * k : ℤ) = 3 := by exact_mod_cast h2
    omega
  exact ⟨by decide, hmax, calculatePriceDistribution_partition c6w (by decide) hmax⟩

/-- Input refuting the output-shape independence of C7: constant price 100
but zero production, so both guarded ratios fall back to 0. -/
def cexConst : List AlignedRecord := [⟨0, 100, 0⟩]

/-- C7 counterexample: with every price equal to 100 but all outputs zero,
the engine returns capture price 0 and capture rate 0, not 100. -/
theorem constant_price_cex :
    cexConst ≠ [] ∧ (∀ d ∈ cexConst, d.price = 100) ∧
    (calculateKPIs cexConst 1 {}).map (fun k => (k.capturePrice, k.captureRate)) =
      some (0, 0) ∧ (0 : ℚ) ≠ 100 := by
  refine ⟨by decide, by decide, by decide, by norm_num⟩

/-- C7 witness input. -/
def c7w : List AlignedRecord := [⟨0, 2, 3⟩]

theorem calculateKPIs_constant_price_witness :
    c7w ≠ [] ∧ (∀ d ∈ c7w, d.price = 2) ∧ (0 : ℚ) < 2 ∧
    0 < (c7w.map (·.output)).sum ∧
    ∃ k, calculateKPIs c7w 1 {} = some k ∧
      k.capturePrice = round2 2 ∧ k.captureRate = 100 :=
  ⟨by decide, by decide, by norm_num, by decide,
    calculateKPIs_constant_price c7w 1 {} 2 (by decide) (by decide) (by norm_num)
      (by decide)⟩

/-- Input refuting exactness of the single-month P50: a monthly revenue of
0.5 comes back as `Math.round 0.5 = 1`. -/
def cexP50 : List AlignedRecord := [⟨0, 1/2, 1⟩]

/-- C8 counterexample: a single-month series with revenue 1/2 reports
P50 = 1, not the exact revenue. -/
theorem p50_rounding_cex :
    (∀ d ∈ cexP50, monthKeyOf d.timestamp = (1970, 1)) ∧
    (cexP50.map fun d => d.price * d.output).sum = 1/2 ∧
    (calculateKPIs cexP50 1 {}).map (·.riskMetrics.p50) = some 1 ∧
    (1 : ℚ) ≠ 1/2 := by
  refine ⟨by decide, by decide, by decide, by norm_num⟩

/-- C8 witness input. -/
def c8w : List AlignedRecord := [⟨0, 2, 3⟩]

theorem calculateKPIs_single_month_p50_witness :
    c8w ≠ [] ∧ (∀ d ∈ c8w, monthKeyOf d.timestamp = (1970, 1)) ∧
    ∃ kpi, calculateKPIs c8w 1 {} = some kpi ∧
      kpi.riskMetrics.p50 = jround ((c8w.map fun d => d.price * d.output).sum) :=
  ⟨by decide, by decide,
    calculateKPIs_single_month_p50 c8w 1 {} (1970, 1) (by decide) (by decide)⟩

/-- C4 witness input: one negative-price producing hour and one expensive
empty hour on the same day. -/
def c4Data : List AlignedRecord := [⟨0, -10, 10⟩, ⟨3600, 50, 0⟩]

/-- C4 witness configuration. -/
def c4Cfg : BatteryConfig := ⟨10, 20, 1, true⟩

theorem simulateBattery_soc_bounds_witness :
    0 < c4Cfg.powerMW ∧ 0 < c4Cfg.energyMWh ∧ 0 < c4Cfg.efficiency ∧
    c4Cfg.efficiency ≤ 1 ∧ (0 : ℚ) ≤ 1 ∧ (1 : ℚ) * 1 ≤ c4Cfg.efficiency ∧
    ∀ day ∈ groupByDay c4Data,
      (socTraceDay c4Cfg 1 day).head? = some (BATTERY_MIN_SOC * c4Cfg.energyMWh) ∧
      ∀ x ∈ socTraceDay c4Cfg 1 day,
        BATTERY_MIN_SOC * c4Cfg.energyMWh ≤ x ∧ x ≤ BATTERY_MAX_SOC * c4Cfg.energyMWh :=
  ⟨by decide, by decide, by decide, by decide, by norm_num, by decide,
    simulateBattery_soc_bounds c4Data c4Cfg 1 (by decide) (by decide) (by decide)
      (by decide) (by norm_num) (by decide)⟩

/-- C10 witness input. -/
def c10Data : List AlignedRecord := [⟨0, -10, 10⟩, ⟨3600, 50, 0⟩]

/-- C10 witness configuration. -/
def c10Cfg : BatteryConfig := ⟨10, 20, 1, true⟩

theorem negativeReduction_denominator_pos_witness :
    (∀ d ∈ c10Data, 0 ≤ d.output) ∧ (0 : ℚ) < 1 ∧
    0 < totalNegativeAvoidedOf c10Cfg 1 c10Data ∧
    0 < negativeDenominatorOf c10Data :=
  ⟨by decide, by norm_num, by decide,
    negativeReduction_denominator_pos c10Data c10Cfg 1 (by decide) (by norm_num)
      (by decide)⟩

/-- C9 witness input: exactly one full 168-hour week. -/
def c9w : List AlignedRecord :=
  (List.range 168).map fun (i : ℕ) => ⟨3600 * (i : ℤ), 1, 0⟩

theorem findRepresentativeWeeks_windows_witness :
    168 ≤ c9w.length ∧
    ((∀ w ∈ groupByWeek c9w, 120 ≤ w.length ∧ w.length ≤ 168) ∧
    (∀ w ∈ (groupByWeek c9w).dropLast, w.length = 168) ∧
    (∃ r, (groupByWeek c9w).flatten ++ r = c9w ∧ r.length < 120) ∧
    (∃ t v n, findRepresentativeWeeks c9w = some (t, v, n) ∧
      120 ≤ t.data.length ∧ 120 ≤ v.data.length ∧ 120 ≤ n.data.length ∧
      Real.sqrt (t.volatility : ℝ) ≤ Real.sqrt (v.volatility : ℝ))) := by
  have h : 168 ≤ c9w.length := by
    unfold c9w
    rw [List.length_map, List.length_range]
  exact ⟨h, findRepresentativeWeeks_windows c9w h⟩

end ConcreteEvaluations
